import Mathlib

/-!
Shallow embedding of the chunked-streaming aggregation core of the
`optimisations` repository (src/utils.py, src/csv_examples.py,
src/chunking_example.py), together with proofs of the specified
properties of the instrumentation harness and the chunked, streaming,
memory-mapped and partitioned CSV aggregators.

Records are modelled as the list of integer `value` fields of the CSV
rows; the file/CSV parsing glue is outside the embedded core except
where a claim is about it (the memory-mapped variant, which does its
own line splitting and `int()` parsing).
-/

/- ### Instrumentation harness — src/utils.py -/

/--
Embedding of `utils.log_memory_usage`.  The wrapped operation is a state
transformer `op : σ → Except ε α × σ`: it returns either a normal result
(`Except.ok`) or a raised exception (`Except.error`), together with its
side effects on the caller-visible state `σ` (effects performed before a
raise persist, as in Python).  The process-wide tracemalloc session is
the extra `Bool` component: `true` while tracking is active.

The wrapper does, in order: `tracemalloc.start()` (tracking flag becomes
`true`), one call of `func`, and — only when that call returns normally —
`get_traced_memory()`, `tracemalloc.stop()` (flag becomes `false`), the
log line, and `return result`.  When `func` raises, the exception
propagates out of `wrapper` and the `stop()` line is never reached, so
the tracking flag stays `true`.
-/
def log_memory_usage (op : σ → Except ε α × σ) :
    σ × Bool → Except ε α × σ × Bool :=
  fun s =>
    let tracing := true
    match op s.1 with
    | (Except.ok r, s') => (Except.ok r, s', false)
    | (Except.error e, s') => (Except.error e, s', tracing)

/--
Embedding of `utils.log_execution_time`: records the start time, calls
`func` once, and (on normal return) records the end time and prints.
Neither the timing nor the printing touches the caller-visible state, so
the wrapper's data content is exactly one application of the operation.
-/
def log_execution_time (op : σ → Except ε α × σ) : σ → Except ε α × σ :=
  fun s =>
    match op s with
    | (r, s') => (r, s')

/- ### CSV aggregation variants — src/csv_examples.py -/

/--
Embedding of `csv_examples.process_csv_non_optimised`: reads all rows
into memory at once, then loops `total += int(row[value])` over them.
`source` is the list of integer `value` fields of the rows.
-/
def process_csv_non_optimised (source : List Int) : Int :=
  source.foldl (fun total v => total + v) 0

/--
Embedding of `csv_examples.process_csv_streaming`: a single loop
`total += int(row[value])` over the rows.
-/
def process_csv_streaming (source : List Int) : Int :=
  source.foldl (fun total v => total + v) 0

/--
The loop of `csv_examples.process_csv_in_chunks`, viewed as the sequence
of chunks it flushes: rows are appended to `chunk`, which is flushed
(summed into the running total) exactly when `len(chunk) == chunk_size`,
with a final flush of a non-empty pending chunk after the loop.
`chunkSize` is an `Int` because the Python parameter is an arbitrary
integer with no validation.
-/
def chunkLoop (chunkSize : Int) (chunk : List Int) : List Int → List (List Int)
  | [] => if chunk.isEmpty then [] else [chunk]
  | r :: rest =>
      let chunk' := chunk ++ [r]
      if (chunk'.length : Int) = chunkSize then chunk' :: chunkLoop chunkSize [] rest
      else chunkLoop chunkSize chunk' rest

/-- The windows (flushed chunks) produced by `process_csv_in_chunks`. -/
def csvWindows (source : List Int) (chunkSize : Int) : List (List Int) :=
  chunkLoop chunkSize [] source

/--
The running-total loop of `csv_examples.process_csv_in_chunks`:
`total += sum(chunk)` at each flush, plus the final `if chunk:` flush.
-/
def chunkTotalLoop (chunkSize : Int) (total : Int) (chunk : List Int) :
    List Int → Int
  | [] => if chunk.isEmpty then total else total + chunk.sum
  | r :: rest =>
      let chunk' := chunk ++ [r]
      if (chunk'.length : Int) = chunkSize then
        chunkTotalLoop chunkSize (total + chunk'.sum) [] rest
      else chunkTotalLoop chunkSize total chunk' rest

/--
Embedding of `csv_examples.process_csv_in_chunks` (the default
`chunk_size=1000` is irrelevant to the claims, which quantify over it).
-/
def process_csv_in_chunks (source : List Int) (chunkSize : Int) : Int :=
  chunkTotalLoop chunkSize 0 [] source

/- ### Helper lemmas about the chunk loop -/

/-- Folding `total + v` over a list adds the list sum to the accumulator. -/
theorem foldl_add_eq_sum (l : List Int) (t : Int) :
    l.foldl (fun total v => total + v) t = t + l.sum := by
  induction l generalizing t with
  | nil => simp
  | cons x xs ih => simp [ih, add_assoc]

/--
The running total of the chunk loop is the accumulator plus the pending
chunk plus the remaining rows, for every chunk size — flushing only
reassociates the additions.
-/
theorem chunkTotalLoop_eq (c : Int) (l : List Int) :
    ∀ (t : Int) (ch : List Int), chunkTotalLoop c t ch l = t + ch.sum + l.sum := by
  induction l with
  | nil =>
      intro t ch
      by_cases h : ch.isEmpty
      · simp [chunkTotalLoop, h, List.isEmpty_iff.mp h]
      · simp [chunkTotalLoop, h]
  | cons r rest ih =>
      intro t ch
      by_cases h : ((ch ++ [r]).length : Int) = c
      · simp only [chunkTotalLoop, h, if_pos]
        rw [ih]
        simp [List.sum_append]
        ring
      · simp only [chunkTotalLoop, h, if_neg, not_false_iff]
        rw [ih]
        simp [List.sum_append]
        ring

/-- The chunked total equals the plain sum of the source, for every chunk size. -/
theorem process_csv_in_chunks_eq_sum (source : List Int) (c : Int) :
    process_csv_in_chunks source c = source.sum := by
  simp [process_csv_in_chunks, chunkTotalLoop_eq]

/- ### C2: chunked aggregation agrees with the naive aggregation -/

/--
C2 (confirmed).  For every source of integer records and every chunk
size `c` in {1, source_length, source_length+1}, the chunked aggregation
`process_csv_in_chunks` returns exactly the same total as the naive
aggregation `process_csv_non_optimised` that loads everything at once
(integer records, so the agreement is exact, not just within 1e-9).
-/
theorem c2_chunked_eq_naive (source : List Int) (c : Int)
    (h : c = 1 ∨ c = source.length ∨ c = source.length + 1) :
    process_csv_in_chunks source c = process_csv_non_optimised source := by
  clear h
  rw [process_csv_in_chunks_eq_sum]
  simp [process_csv_non_optimised, foldl_add_eq_sum]

/-- Witness for C2 at source `[1,2,3]`, chunk size 1. -/
theorem c2_chunked_eq_naive_witness :
    process_csv_in_chunks [1, 2, 3] 1 = process_csv_non_optimised [1, 2, 3] :=
  c2_chunked_eq_naive [1, 2, 3] 1 (Or.inl rfl)

/- ### C8: zero-length source -/

/--
C8 (confirmed).  For a zero-length source and every positive chunk size,
the chunked aggregation returns total 0 (the identity accumulator of the
sum fold), produces no window at all (so the record count, the summed
window lengths, is 0), and raises no error (the embedding is a total
function returning a normal value).
-/
theorem c8_empty_source (c : Int) (hc : 0 < c) :
    process_csv_in_chunks [] c = 0 ∧ csvWindows [] c = [] ∧
      ((csvWindows [] c).map List.length).sum = 0 := by
  refine ⟨rfl, rfl, rfl⟩

/-- Witness for C8 at chunk size 2. -/
theorem c8_empty_source_witness :
    process_csv_in_chunks [] 2 = 0 ∧ csvWindows [] 2 = [] ∧
      ((csvWindows [] 2).map List.length).sum = 0 :=
  c8_empty_source 2 (by decide)

/- ### C6: non-positive chunk size -/

/--
C6 counterexample.  With `chunk_size = 0` the chunked aggregation does
not fail at all: it returns the complete sum 6 of `[1,2,3]`, and the
whole source was folded as one final window — so the claimed
InvalidArgument failure (with no partial work) does not happen.
-/
theorem c6_counterexample :
    process_csv_in_chunks [1, 2, 3] 0 = 6 ∧ csvWindows [1, 2, 3] 0 = [[1, 2, 3]] := by
  refine ⟨rfl, rfl⟩

/--
Helper for C6: with a non-positive chunk size the flush condition
`len(chunk) == chunk_size` can never hold (the length is at least 1 at
the test), so every row accumulates into the single pending chunk, which
is flushed once at the end when the source is non-empty.
-/
theorem chunkLoop_nonpos (c : Int) (hc : c ≤ 0) (l : List Int) :
    ∀ ch : List Int, chunkLoop c ch l =
      if (ch ++ l).isEmpty then [] else [ch ++ l] := by
  induction l with
  | nil => intro ch; simp [chunkLoop]
  | cons r rest ih =>
      intro ch
      have hne : ¬ (((ch ++ [r]).length : Int) = c) := by
        simp only [List.length_append, List.length_cons, List.length_nil]
        push_cast
        omega
      simp only [chunkLoop, hne, if_neg, not_false_iff]
      rw [ih (ch ++ [r])]
      simp

/--
C6 (amended).  For every source and every chunk size ≤ 0, the chunked
aggregation does not fail and is not a no-op: the flush-on-full
condition never triggers, the whole source accumulates into one pending
chunk flushed at the end (one window equal to the source, none for an
empty source), and the returned total is the full sum of the source.
-/
theorem c6_amended (source : List Int) (c : Int) (hc : c ≤ 0) :
    process_csv_in_chunks source c = source.sum ∧
      csvWindows source c = if source.isEmpty then [] else [source] := by
  refine ⟨process_csv_in_chunks_eq_sum source c, ?_⟩
  unfold csvWindows
  rw [chunkLoop_nonpos c hc source []]
  simp

/-- Witness for the amended C6 at source `[1,2,3]`, chunk size `-2`. -/
theorem c6_amended_witness :
    process_csv_in_chunks [1, 2, 3] (-2) = List.sum [1, 2, 3] ∧
      csvWindows [1, 2, 3] (-2) =
        if List.isEmpty [1, 2, 3] then [] else [[1, 2, 3]] :=
  c6_amended [1, 2, 3] (-2) (by decide)

/- ### C1: exception path of the memory-measuring wrapper -/

/--
C1 counterexample.  Wrapping an operation that raises: the exception
does propagate unchanged, but the final tracking flag is `true` — the
process-wide tracemalloc session is still active after the wrapper
re-raises, because `wrapper` has no try/finally and `tracemalloc.stop()`
is only reached on the normal-return path.  The claim requires the flag
to be `false` (session stopped) on every exit path.
-/
theorem c1_counterexample :
    log_memory_usage (fun _ : Unit => ((Except.error "boom" : Except String Unit), ()))
      ((), false) = (Except.error "boom", (), true) := rfl

/--
C1 (amended).  When the wrapped operation raises, the exception
propagates unchanged to the caller, but the memory-tracking session is
NOT stopped: `tracemalloc.stop()` sits on the normal-return path only,
so the process-wide session is left active (leaked) on the exception
path.
-/
theorem c1_amended (op : σ → Except ε α × σ) (s s' : σ) (tr : Bool) (e : ε)
    (h : op s = (Except.error e, s')) :
    log_memory_usage op (s, tr) = (Except.error e, s', true) := by
  simp [log_memory_usage, h]

/-- Witness for the amended C1 at a concrete raising operation. -/
theorem c1_amended_witness :
    log_memory_usage (fun _ : Unit => ((Except.error (0 : Nat) : Except Nat Unit), ()))
      ((), false) = (Except.error 0, (), true) :=
  c1_amended (fun _ : Unit => ((Except.error (0 : Nat) : Except Nat Unit), ()))
    () () false 0 rfl

/- ### C7: the wrappers are transparent -/

/--
C7 (confirmed).  For every operation and every starting state (argument
list / mutable environment), both instrumentation wrappers return
exactly the outcome of the operation, unaltered, and leave the
caller-visible state at exactly one application of the operation — i.e.
they invoke it exactly once (a second invocation would leave the state
at `op (op s).2`, not `(op s).2`; e.g. a call-counting operation ends
with its counter incremented by exactly 1).
-/
theorem c7_wrappers_transparent (op : σ → Except ε α × σ) (s : σ) (tr : Bool) :
    (log_memory_usage op (s, tr)).1 = (op s).1 ∧
      (log_memory_usage op (s, tr)).2.1 = (op s).2 ∧
      log_execution_time op s = op s := by
  rcases h : op s with ⟨r | e, s'⟩ <;>
    simp [log_memory_usage, log_execution_time, h]

/- ### C3: window shapes of the chunk loop -/

/-- The chunks flushed by the loop concatenate back to pending ++ remaining rows. -/
theorem chunkLoop_flatten (c : Int) (l : List Int) :
    ∀ ch : List Int, (chunkLoop c ch l).flatten = ch ++ l := by
  induction l with
  | nil =>
      intro ch
      by_cases h : ch.isEmpty
      · simp [chunkLoop, h, List.isEmpty_iff.mp h]
      · simp [chunkLoop, h]
  | cons r rest ih =>
      intro ch
      by_cases h : ((ch ++ [r]).length : Int) = c
      · simp only [chunkLoop, h, if_pos]
        simp [ih]
      · simp only [chunkLoop, h, if_neg, not_false_iff]
        simp [ih]

/-- Every flushed chunk except possibly the final one has length exactly `c`:
chunks are flushed mid-loop only when `len(chunk) == chunk_size`. -/
theorem chunkLoop_dropLast_length (c : Nat) (l : List Int) :
    ∀ ch : List Int, ∀ w ∈ (chunkLoop (c : Int) ch l).dropLast, w.length = c := by
  induction l with
  | nil =>
      intro ch w hw
      by_cases h : ch.isEmpty <;> simp [chunkLoop, h] at hw
  | cons r rest ih =>
      intro ch w hw
      by_cases h : (((ch ++ [r]).length : Nat) : Int) = (c : Int)
      · simp only [chunkLoop, h, if_pos] at hw
        rcases ht : chunkLoop (c : Int) [] rest with _ | ⟨t, ts⟩
        · rw [ht] at hw
          simp at hw
        · rw [ht, List.dropLast_cons₂, List.mem_cons] at hw
          rcases hw with rfl | hw
          · exact_mod_cast h
          · exact ih [] w (by rw [ht]; exact hw)
      · simp only [chunkLoop, h, if_neg, not_false_iff] at hw
        exact ih (ch ++ [r]) w hw

/-- The final flushed chunk is non-empty and no longer than `c`, provided the
pending chunk is shorter than `c` (the loop invariant: a pending chunk is
flushed as soon as it reaches length `c`). -/
theorem chunkLoop_getLast_length (c : Nat) (hc : 0 < c) (l : List Int) :
    ∀ ch : List Int, ch.length < c →
      ∀ w, (chunkLoop (c : Int) ch l).getLast? = some w →
        0 < w.length ∧ w.length ≤ c := by
  induction l with
  | nil =>
      intro ch hch w hw
      by_cases h : ch.isEmpty
      · simp [chunkLoop, h] at hw
      · have hstep : chunkLoop (c : Int) ch [] = [ch] := by
          simp [chunkLoop, h]
        rw [hstep, List.getLast?_singleton, Option.some.injEq] at hw
        subst hw
        refine ⟨?_, Nat.le_of_lt hch⟩
        cases ch with
        | nil => simp at h
        | cons a t => simp
  | cons r rest ih =>
      intro ch hch w hw
      by_cases h : (((ch ++ [r]).length : Nat) : Int) = (c : Int)
      · simp only [chunkLoop, h, if_pos] at hw
        rcases ht : chunkLoop (c : Int) [] rest with _ | ⟨t, ts⟩
        · rw [ht, List.getLast?_singleton, Option.some.injEq] at hw
          subst hw
          have hlen : (ch ++ [r]).length = c := by exact_mod_cast h
          rw [hlen]
          exact ⟨hc, Nat.le_refl c⟩
        · rw [ht, List.getLast?_cons_cons, ← ht] at hw
          exact ih [] (by simpa using hc) w hw
      · simp only [chunkLoop, h, if_neg, not_false_iff] at hw
        have hlt : (ch ++ [r]).length < c := by
          have hne : (ch ++ [r]).length ≠ c := fun hcontra => h (by exact_mod_cast hcontra)
          have : (ch ++ [r]).length = ch.length + 1 := by simp
          omega
        exact ih (ch ++ [r]) hlt w hw

/-- Summing a constant function over a list. -/
theorem sum_map_of_const {α : Type} (l : List α) (f : α → Nat) (c : Nat)
    (h : ∀ x ∈ l, f x = c) : (l.map f).sum = c * l.length := by
  induction l with
  | nil => simp
  | cons x xs ih =>
      simp only [List.map_cons, List.sum_cons, List.length_cons]
      rw [h x (List.mem_cons_self x xs), ih fun y hy => h y (List.mem_cons_of_mem x hy)]
      ring

/--
C3 (confirmed).  For every source and every positive chunk size `c`, the
chunked aggregator slices the source into consecutive windows — their
concatenation is the source — of exactly `c` records each except the
last, whose size is `source.length % c` when that is non-zero and a full
`c` when the length divides evenly; in particular source `[1,2,3,4,5]`
with chunk size 2 yields windows `[1,2],[3,4],[5]`, final total 15, and
record count (sum of window sizes) 5.
-/
theorem c3_window_shapes (source : List Int) (c : Nat) (hc : 0 < c) :
    (csvWindows source (c : Int)).flatten = source ∧
      (∀ w ∈ (csvWindows source (c : Int)).dropLast, w.length = c) ∧
      (∀ w, (csvWindows source (c : Int)).getLast? = some w →
        w.length = if source.length % c = 0 then c else source.length % c) ∧
      csvWindows [1, 2, 3, 4, 5] 2 = [[1, 2], [3, 4], [5]] ∧
      process_csv_in_chunks [1, 2, 3, 4, 5] 2 = 15 ∧
      ((csvWindows [1, 2, 3, 4, 5] 2).map List.length).sum = 5 := by
  have hflat : (csvWindows source (c : Int)).flatten = source :=
    (chunkLoop_flatten (c : Int) source [])
  refine ⟨hflat, chunkLoop_dropLast_length c source [], ?_, by decide, by decide, by decide⟩
  intro w hw
  have hbounds := chunkLoop_getLast_length c hc source [] (by simpa using hc) w hw
  set ws := csvWindows source (c : Int) with hws
  have hsplit : ws.dropLast ++ [w] = ws := by
    rcases hws' : ws with _ | ⟨a, t⟩
    · rw [hws'] at hw
      simp at hw
    · have hne : (a :: t) ≠ [] := by simp
      rw [hws', List.getLast?_eq_getLast _ hne, Option.some.injEq] at hw
      rw [← hw]
      exact List.dropLast_append_getLast hne
  have hlen : source.length = c * ws.dropLast.length + w.length := by
    have h1 : source.length = (ws.map List.length).sum := by
      rw [← hflat, List.length_flatten]
    have h2 : (ws.map List.length).sum
        = ((ws.dropLast).map List.length).sum + w.length := by
      rw [← hsplit]
      simp
    have h3 : ((ws.dropLast).map List.length).sum = c * ws.dropLast.length :=
      sum_map_of_const ws.dropLast List.length c
        (chunkLoop_dropLast_length c source [])
    omega
  rcases Nat.lt_or_ge w.length c with hlt | hge
  · have hmod : source.length % c = w.length := by
      rw [hlen, Nat.mul_add_mod]
      exact Nat.mod_eq_of_lt hlt
    rw [hmod, if_neg (by omega)]
  · have hwc : w.length = c := Nat.le_antisymm hbounds.2 hge
    have hmod : source.length % c = 0 := by
      rw [hlen, hwc, ← Nat.mul_succ, Nat.mul_mod_right]
    rw [hmod, if_pos rfl, hwc]

/-- Witness for C3 at source `[1,2,3,4,5]`, chunk size 2. -/
theorem c3_window_shapes_witness :
    (csvWindows [1, 2, 3, 4, 5] ((2 : Nat) : Int)).flatten = [1, 2, 3, 4, 5] ∧
      (∀ w ∈ (csvWindows [1, 2, 3, 4, 5] ((2 : Nat) : Int)).dropLast, w.length = 2) ∧
      (∀ w, (csvWindows [1, 2, 3, 4, 5] ((2 : Nat) : Int)).getLast? = some w →
        w.length = if (List.length [1, 2, 3, 4, 5] : Nat) % 2 = 0 then 2
          else (List.length [1, 2, 3, 4, 5] : Nat) % 2) ∧
      csvWindows [1, 2, 3, 4, 5] 2 = [[1, 2], [3, 4], [5]] ∧
      process_csv_in_chunks [1, 2, 3, 4, 5] 2 = 15 ∧
      ((csvWindows [1, 2, 3, 4, 5] 2).map List.length).sum = 5 :=
  c3_window_shapes [1, 2, 3, 4, 5] 2 (by decide)

/- ### Distributed processing — src/csv_examples.py -/

/--
The per-worker index ranges built by `csv_examples.process_csv_distributed`:
`chunks = [(i * chunk_size, (i + 1) * chunk_size) for i in range(num_processes)]`
with `chunk_size = num_rows // num_processes`, followed by the in-place
adjustment `chunks[-1] = (chunks[-1][0], num_rows)` so the last range
also covers the remaining rows.
-/
def distChunks (numProcesses numRows : Nat) : List (Nat × Nat) :=
  let chunkSize := numRows / numProcesses
  let chunks := (List.range numProcesses).map fun i => (i * chunkSize, (i + 1) * chunkSize)
  chunks.set (numProcesses - 1) ((numProcesses - 1) * chunkSize, numRows)

/--
Embedding of `csv_examples.process_chunk`: enumerates the rows and adds
`int(row[value])` to the running total exactly for the rows whose
0-based index `i` satisfies `start <= i < end`.
-/
def process_chunk (source : List Int) (start fin : Nat) : Int :=
  (source.enum).foldl
    (fun total p => if start ≤ p.1 ∧ p.1 < fin then total + p.2 else total) 0

/--
Embedding of `csv_examples.process_csv_distributed`: computes the row
count, builds the per-worker ranges, runs `process_chunk` on each and
sums the partial totals.  For `num_processes = 0` the Python line
`chunk_size = num_rows // num_processes` raises `ZeroDivisionError`
(modelled as `none`); otherwise the call returns normally.
-/
def process_csv_distributed (source : List Int) (numProcesses : Nat) : Option Int :=
  if numProcesses = 0 then none
  else
    some (((distChunks numProcesses source.length).map
      fun r => process_chunk source r.1 r.2).sum)

/-- The worker range of index `k` (the `(start, end)` pair handed to worker `k`). -/
def chunkOf (numProcesses numRows k : Nat) : Nat × Nat :=
  (distChunks numProcesses numRows).getD k (0, 0)

/-- Setting the element just past a prefix replaces the appended singleton. -/
theorem set_append_singleton {α : Type} (A : List α) (x y : α) :
    (A ++ [x]).set A.length y = A ++ [y] := by
  induction A with
  | nil => rfl
  | cons a A ih =>
      show a :: (A ++ [x]).set A.length y = a :: (A ++ [y])
      rw [ih]

/-- The worker ranges: `numProcesses - 1` full ranges of `chunk_size`
indices followed by the adjusted last range ending at `numRows`. -/
theorem distChunks_structure (m total : Nat) :
    distChunks (m + 1) total =
      ((List.range m).map fun i => (i * (total / (m + 1)), (i + 1) * (total / (m + 1))))
        ++ [(m * (total / (m + 1)), total)] := by
  have hlen : ((List.range m).map
      fun i => (i * (total / (m + 1)), (i + 1) * (total / (m + 1)))).length = m := by
    simp
  have happ := set_append_singleton
    ((List.range m).map fun i => (i * (total / (m + 1)), (i + 1) * (total / (m + 1))))
    (m * (total / (m + 1)), (m + 1) * (total / (m + 1)))
    (m * (total / (m + 1)), total)
  rw [hlen] at happ
  simp only [distChunks, Nat.add_sub_cancel]
  rw [List.range_succ, List.map_append, List.map_cons, List.map_nil]
  exact happ

/-- Closed form of a single worker range. -/
theorem chunkOf_eq (m total k : Nat) (hk : k < m + 1) :
    chunkOf (m + 1) total k =
      if k = m then (m * (total / (m + 1)), total)
      else (k * (total / (m + 1)), (k + 1) * (total / (m + 1))) := by
  unfold chunkOf
  rw [distChunks_structure]
  by_cases hkm : k = m
  · subst hkm
    rw [if_pos rfl, List.getD_eq_getElem?_getD, List.getElem?_append]
    simp
  · have hklt : k < m := by omega
    rw [if_neg hkm, List.getD_eq_getElem?_getD, List.getElem?_append,
      if_pos (by simpa using hklt), List.getElem?_map, List.getElem?_range hklt]
    rfl

/--
C4 (confirmed).  For every record count and every `num_workers ≥ 1`, the
partitioned aggregation splits the index range into `num_workers`
contiguous, non-overlapping partitions: every partition except the last
has size `floor(total/num_workers)`, the last has that size plus the
entire remainder `total mod num_workers`, consecutive partitions abut
(each starts where the previous one ends), any two partition sizes
differ by at most `num_workers - 1`, and 10 records with 3 workers give
sizes `[3, 3, 4]`.
-/
theorem c4_partition_sizes (n total : Nat) (hn : 1 ≤ n) :
    (∀ k, k < n - 1 →
        (chunkOf n total k).2 - (chunkOf n total k).1 = total / n) ∧
      (chunkOf n total (n - 1)).2 - (chunkOf n total (n - 1)).1
          = total / n + total % n ∧
      (∀ k, k + 1 < n → (chunkOf n total (k + 1)).1 = (chunkOf n total k).2) ∧
      (∀ k₁ k₂, k₁ < n → k₂ < n →
        (chunkOf n total k₁).2 - (chunkOf n total k₁).1
          ≤ ((chunkOf n total k₂).2 - (chunkOf n total k₂).1) + (n - 1)) ∧
      ((distChunks 3 10).map fun r => r.2 - r.1) = [3, 3, 4] := by
  obtain ⟨m, rfl⟩ : ∃ m, n = m + 1 := ⟨n - 1, by omega⟩
  obtain ⟨d, hd⟩ : ∃ d, total / (m + 1) = d := ⟨_, rfl⟩
  obtain ⟨r, hr⟩ : ∃ r, total % (m + 1) = r := ⟨_, rfl⟩
  have hdm : (m + 1) * d + r = total := by
    rw [← hd, ← hr]
    exact Nat.div_add_mod total (m + 1)
  have hmod : r < m + 1 := by
    rw [← hr]
    exact Nat.mod_lt total (by omega)
  have hmul : (m + 1) * d = m * d + d := by ring
  simp only [Nat.add_sub_cancel]
  refine ⟨?_, ?_, ?_, ?_, by decide⟩
  · intro k hk
    rw [chunkOf_eq m total k (by omega), if_neg (by omega), hd]
    have h1 : (k + 1) * d = k * d + d := by ring
    omega
  · rw [chunkOf_eq m total m (by omega), if_pos rfl, hd, hr]
    omega
  · intro k hk
    rw [chunkOf_eq m total (k + 1) (by omega), chunkOf_eq m total k (by omega),
      if_neg (show ¬(k = m) by omega)]
    by_cases hk1 : k + 1 = m
    · rw [if_pos hk1, hk1]
    · rw [if_neg hk1]
  · intro k₁ k₂ hk₁ hk₂
    rw [chunkOf_eq m total k₁ hk₁, chunkOf_eq m total k₂ hk₂]
    have h₁ : (k₁ + 1) * d = k₁ * d + d := by ring
    have h₂ : (k₂ + 1) * d = k₂ * d + d := by ring
    by_cases e₁ : k₁ = m
    · by_cases e₂ : k₂ = m
      · rw [if_pos e₁, if_pos e₂, hd]
        omega
      · rw [if_pos e₁, if_neg e₂, hd]
        omega
    · by_cases e₂ : k₂ = m
      · rw [if_neg e₁, if_pos e₂, hd]
        omega
      · rw [if_neg e₁, if_neg e₂, hd]
        omega

/-- Witness for C4 at 10 records and 3 workers. -/
theorem c4_partition_sizes_witness :
    (∀ k, k < 3 - 1 →
        (chunkOf 3 10 k).2 - (chunkOf 3 10 k).1 = 10 / 3) ∧
      (chunkOf 3 10 (3 - 1)).2 - (chunkOf 3 10 (3 - 1)).1 = 10 / 3 + 10 % 3 ∧
      (∀ k, k + 1 < 3 → (chunkOf 3 10 (k + 1)).1 = (chunkOf 3 10 k).2) ∧
      (∀ k₁ k₂, k₁ < 3 → k₂ < 3 →
        (chunkOf 3 10 k₁).2 - (chunkOf 3 10 k₁).1
          ≤ ((chunkOf 3 10 k₂).2 - (chunkOf 3 10 k₂).1) + (3 - 1)) ∧
      ((distChunks 3 10).map fun r => r.2 - r.1) = [3, 3, 4] :=
  c4_partition_sizes 3 10 (by decide)

/--
C10 (confirmed).  For every `num_processes ≥ 1` and every record count,
the index ranges built by the distributed aggregation are pairwise
disjoint and their union is exactly `[0, num_rows)`: an index is below
`num_rows` iff some worker's range contains it, and no index lies in two
distinct workers' ranges — including when `num_processes` exceeds
`num_rows` and `chunk_size = num_rows / num_processes` is 0, in which
case the first `num_processes - 1` ranges are empty and the last range
is all of `[0, num_rows)`.
-/
theorem c10_partition_exact (n total idx k₁ k₂ : Nat) (hn : 1 ≤ n) :
    (idx < total ↔ ∃ k, k < n ∧
        (chunkOf n total k).1 ≤ idx ∧ idx < (chunkOf n total k).2) ∧
      (k₁ < n → k₂ < n →
        (chunkOf n total k₁).1 ≤ idx → idx < (chunkOf n total k₁).2 →
        (chunkOf n total k₂).1 ≤ idx → idx < (chunkOf n total k₂).2 → k₁ = k₂) := by
  obtain ⟨m, rfl⟩ : ∃ m, n = m + 1 := ⟨n - 1, by omega⟩
  obtain ⟨d, hd⟩ : ∃ d, total / (m + 1) = d := ⟨_, rfl⟩
  obtain ⟨r, hr⟩ : ∃ r, total % (m + 1) = r := ⟨_, rfl⟩
  have hdm : (m + 1) * d + r = total := by
    rw [← hd, ← hr]
    exact Nat.div_add_mod total (m + 1)
  have hmul : (m + 1) * d = m * d + d := by ring
  have hcontain : ∀ k, k < m + 1 →
      (chunkOf (m + 1) total k).1 ≤ idx → idx < (chunkOf (m + 1) total k).2 →
      (k = m ∧ m * d ≤ idx ∧ idx < total) ∨
        (k < m ∧ k * d ≤ idx ∧ idx < (k + 1) * d) := by
    intro k hk h1 h2
    by_cases hkm : k = m
    · rw [chunkOf_eq m total k hk, if_pos hkm, hd] at h1 h2
      exact Or.inl ⟨hkm, h1, h2⟩
    · rw [chunkOf_eq m total k hk, if_neg hkm, hd] at h1 h2
      exact Or.inr ⟨by omega, h1, h2⟩
  constructor
  · constructor
    · intro hidx
      rcases Nat.lt_or_ge idx (m * d) with hlow | hhigh
      · have hcs0 : 0 < d := by
          rcases Nat.eq_zero_or_pos d with h0 | h0
          · rw [h0, Nat.mul_zero] at hlow
            omega
          · exact h0
        have hklt : idx / d < m := (Nat.div_lt_iff_lt_mul hcs0).mpr hlow
        refine ⟨idx / d, by omega, ?_, ?_⟩
        · rw [chunkOf_eq m total (idx / d) (by omega), if_neg (by omega), hd]
          exact Nat.div_mul_le_self idx d
        · rw [chunkOf_eq m total (idx / d) (by omega), if_neg (by omega), hd]
          obtain ⟨q, hq⟩ : ∃ q, idx / d = q := ⟨_, rfl⟩
          obtain ⟨w, hw⟩ : ∃ w, idx % d = w := ⟨_, rfl⟩
          have hqd : d * q + w = idx := by
            rw [← hq, ← hw]
            exact Nat.div_add_mod idx d
          have hrm : w < d := by
            rw [← hw]
            exact Nat.mod_lt idx hcs0
          have hcomm : d * q = q * d := Nat.mul_comm d q
          have hsucc : (q + 1) * d = q * d + d := by ring
          rw [hq]
          omega
      · refine ⟨m, by omega, ?_, ?_⟩
        · rw [chunkOf_eq m total m (by omega), if_pos rfl, hd]
          exact hhigh
        · rw [chunkOf_eq m total m (by omega), if_pos rfl]
          exact hidx
    · rintro ⟨k, hk, h1, h2⟩
      rcases hcontain k hk h1 h2 with ⟨_, _, h⟩ | ⟨hklt, _, h⟩
      · exact h
      · have hle : (k + 1) * d ≤ (m + 1) * d := Nat.mul_le_mul_right _ (by omega)
        omega
  · intro hk₁ hk₂ ha₁ hb₁ ha₂ hb₂
    rcases hcontain k₁ hk₁ ha₁ hb₁ with ⟨e₁, hlo₁, _⟩ | ⟨hlt₁, hlo₁, hhi₁⟩ <;>
      rcases hcontain k₂ hk₂ ha₂ hb₂ with ⟨e₂, hlo₂, _⟩ | ⟨hlt₂, hlo₂, hhi₂⟩
    · omega
    · exfalso
      have hle : (k₂ + 1) * d ≤ m * d := Nat.mul_le_mul_right _ (by omega)
      omega
    · exfalso
      have hle : (k₁ + 1) * d ≤ m * d := Nat.mul_le_mul_right _ (by omega)
      omega
    · rcases Nat.lt_trichotomy k₁ k₂ with hlt | heq | hgt
      · exfalso
        have hle : (k₁ + 1) * d ≤ k₂ * d := Nat.mul_le_mul_right _ (by omega)
        have h₁ : (k₁ + 1) * d = k₁ * d + d := by ring
        omega
      · exact heq
      · exfalso
        have hle : (k₂ + 1) * d ≤ k₁ * d := Nat.mul_le_mul_right _ (by omega)
        have h₂ : (k₂ + 1) * d = k₂ * d + d := by ring
        omega

/-- Witness for C10 at 5 workers over 3 records (`chunk_size = 0`). -/
theorem c10_partition_exact_witness :
    (2 < 3 ↔ ∃ k, k < 5 ∧
        (chunkOf 5 3 k).1 ≤ 2 ∧ 2 < (chunkOf 5 3 k).2) ∧
      (0 < 5 → 4 < 5 →
        (chunkOf 5 3 0).1 ≤ 2 → 2 < (chunkOf 5 3 0).2 →
        (chunkOf 5 3 4).1 ≤ 2 → 2 < (chunkOf 5 3 4).2 → 0 = 4) :=
  c10_partition_exact 5 3 2 0 4 (by decide)

/- ### C5: partitioned aggregation agrees with the streaming aggregation -/

/-- Closed form of the indexed fold of `process_chunk`, starting the
enumeration at an arbitrary index `k`: it adds exactly the values at
positions `[a, b)` of the enumerated suffix. -/
theorem enumFrom_foldl_range_sum (a b : Nat) :
    ∀ (l : List Int) (k : Nat) (t : Int),
      (l.enumFrom k).foldl
          (fun total p => if a ≤ p.1 ∧ p.1 < b then total + p.2 else total) t
        = t + ((l.drop (a - k)).take (b - max a k)).sum := by
  intro l
  induction l with
  | nil => intro k t; simp
  | cons x xs ih =>
      intro k t
      rw [List.enumFrom_cons, List.foldl_cons]
      rcases Nat.lt_or_ge k a with hka | hka
      · rw [if_neg (by omega), ih (k + 1) t,
          show a - k = (a - (k + 1)) + 1 by omega, List.drop_succ_cons,
          show max a k = a by omega, show max a (k + 1) = a by omega]
      · rcases Nat.lt_or_ge k b with hkb | hkb
        · rw [if_pos ⟨hka, hkb⟩, ih (k + 1) (t + x),
            show a - k = 0 by omega, show a - (k + 1) = 0 by omega,
            List.drop_zero, List.drop_zero,
            show max a k = k by omega, show max a (k + 1) = k + 1 by omega,
            show b - k = (b - (k + 1)) + 1 by omega,
            List.take_succ_cons, List.sum_cons]
          ring
        · rw [if_neg (by omega), ih (k + 1) t,
            show b - max a k = 0 by omega, show b - max a (k + 1) = 0 by omega,
            List.take_zero, List.take_zero]

/-- `process_chunk` sums exactly the records at indices `[start, end)`. -/
theorem process_chunk_eq (source : List Int) (a b : Nat) :
    process_chunk source a b = ((source.drop a).take (b - a)).sum := by
  unfold process_chunk
  rw [show source.enum = source.enumFrom 0 from rfl, enumFrom_foldl_range_sum]
  simp

/-- Telescoping step: the records at indices `[a, b)` extend a prefix sum. -/
theorem take_sub_sum (source : List Int) (a b : Nat) (h : a ≤ b) :
    (source.take a).sum + ((source.drop a).take (b - a)).sum
      = (source.take b).sum := by
  rw [← List.sum_append, ← List.take_add, show a + (b - a) = b by omega]

/-- Folding the first `m` full worker ranges gives the prefix sum up to `m * cs`. -/
theorem sum_pc_range (source : List Int) (cs : Nat) (m : Nat) :
    ((((List.range m).map fun i => (i * cs, (i + 1) * cs)).map
        fun p => process_chunk source p.1 p.2).sum)
      = (source.take (m * cs)).sum := by
  induction m with
  | zero => simp
  | succ m ih =>
      rw [List.range_succ, List.map_append, List.map_append, List.sum_append, ih]
      simp only [List.map_cons, List.map_nil, List.sum_cons, List.sum_nil, add_zero]
      rw [process_chunk_eq]
      exact take_sub_sum source (m * cs) ((m + 1) * cs)
        (Nat.mul_le_mul_right cs (by omega))

/-- For every positive worker count the distributed total is the sum of
the whole source: the ranges partition the index range, so the partial
sums telescope. -/
theorem process_csv_distributed_eq_sum (source : List Int) (n : Nat) (hn : 1 ≤ n) :
    process_csv_distributed source n = some source.sum := by
  obtain ⟨m, rfl⟩ : ∃ m, n = m + 1 := ⟨n - 1, by omega⟩
  unfold process_csv_distributed
  rw [if_neg (by omega)]
  congr 1
  rw [distChunks_structure, List.map_append, List.sum_append]
  simp only [List.map_cons, List.map_nil, List.sum_cons, List.sum_nil, add_zero]
  rw [sum_pc_range, process_chunk_eq]
  have hle : m * (source.length / (m + 1)) ≤ source.length := by
    calc m * (source.length / (m + 1))
        ≤ (m + 1) * (source.length / (m + 1)) :=
          Nat.mul_le_mul_right _ (by omega)
      _ = (source.length / (m + 1)) * (m + 1) := Nat.mul_comm _ _
      _ ≤ source.length := Nat.div_mul_le_self _ _
  rw [take_sub_sum source (m * (source.length / (m + 1))) source.length hle,
    List.take_length]

/--
C5 counterexample.  The claim quantifies `num_workers` over
{1, 2, source_length}; for the empty source this includes
`num_workers = 0`, where the Python code raises ZeroDivisionError at
`chunk_size = num_rows // num_processes` instead of returning the
streaming total: the distributed call produces no result at all.
-/
theorem c5_counterexample :
    process_csv_distributed ([] : List Int) (List.length ([] : List Int)) = none ∧
      process_csv_distributed ([] : List Int) (List.length ([] : List Int))
        ≠ some (process_csv_streaming ([] : List Int)) := by
  exact ⟨rfl, by decide⟩

/--
C5 (amended).  For every fixed source of integer records and every
`num_workers` in {1, 2, source_length} **that is at least 1** (for the
empty source, `num_workers = source_length = 0` makes the code raise
ZeroDivisionError), the partitioned aggregation — sum of the
per-partition partial sums — returns exactly the value of the single
sequential (streaming) aggregation over the whole source (integer
records, so agreement is exact, not just within 1e-9).
-/
theorem c5_partitioned_eq_streaming (source : List Int) (n : Nat)
    (hmem : n = 1 ∨ n = 2 ∨ n = source.length) (hn : 1 ≤ n) :
    process_csv_distributed source n = some (process_csv_streaming source) := by
  rw [process_csv_distributed_eq_sum source n hn]
  unfold process_csv_streaming
  rw [foldl_add_eq_sum, zero_add]

/-- Witness for the amended C5 at source `[5, 7, 9]`, 2 workers. -/
theorem c5_partitioned_eq_streaming_witness :
    process_csv_distributed [5, 7, 9] 2 = some (process_csv_streaming [5, 7, 9]) :=
  c5_partitioned_eq_streaming [5, 7, 9] 2 (Or.inr (Or.inl rfl)) (by decide)

/- ### Memory-mapped variant — src/csv_examples.py -/

/--
Embedding of Python `str.split(sep)` for a one-character separator, on
the decoded characters of a line: splits at every occurrence of `sep`,
always yields at least one field, and yields a single field exactly when
the line contains no separator (`"".split(',') == ['']`).
-/
def pySplit (sep : Char) : List Char → List (List Char)
  | [] => [[]]
  | ch :: rest =>
      match pySplit sep rest with
      | [] => [[ch]]
      | f :: fs => if ch = sep then [] :: f :: fs else (ch :: f) :: fs

/-- Python `str.strip()` of surrounding whitespace (as `int()` applies it). -/
def pyTrim (cs : List Char) : List Char :=
  (((cs.dropWhile Char.isWhitespace).reverse).dropWhile Char.isWhitespace).reverse

/--
Model of Python `int(str)` on the decimal literals these CSV lines can
contain: surrounding whitespace is stripped, then an optional single
sign must be followed by at least one digit and nothing else; any other
shape raises ValueError (`none`).
-/
def pyInt? (cs : List Char) : Option Int :=
  let t := pyTrim cs
  let signDigits : Int × List Char :=
    match t with
    | '-' :: rest => (-1, rest)
    | '+' :: rest => (1, rest)
    | _ => (1, t)
  if signDigits.2 ≠ [] ∧ signDigits.2.all Char.isDigit then
    some (signDigits.1 *
      ((signDigits.2.foldl (fun acc ch => acc * 10 + (ch.toNat - 48)) (0 : Nat) : Nat) : Int))
  else none

/--
The line loop of `csv_examples.process_csv_mmap`:
`value = int(line.decode().split(',')[1])` with only `ValueError` caught
(`pass`), so a line with fewer than two comma-separated fields makes the
subscript `[1]` raise an uncaught IndexError that aborts the whole call.
Lines are the decoded characters of each `mm.readline()` result
(trailing newline included; `int()` strips it as whitespace).
-/
def mmapLoop : Int → List (List Char) → Except String Int
  | total, [] => Except.ok total
  | total, line :: rest =>
      match (pySplit ',' line).drop 1 with
      | [] => Except.error "IndexError"
      | f1 :: _ =>
          match pyInt? f1 with
          | some v => mmapLoop (total + v) rest
          | none => mmapLoop total rest

/-- Embedding of `csv_examples.process_csv_mmap` over the decoded lines of the file. -/
def process_csv_mmap (lines : List (List Char)) : Except String Int :=
  mmapLoop 0 lines

/--
C9 counterexample.  A file whose third line has no comma: the header and
the ordinary row behave as claimed, but the comma-less line makes
`split(',')[1]` raise IndexError — which the `except ValueError` clause
does not catch — so the call raises instead of returning the sum (2)
over the lines that parse.
-/
theorem c9_counterexample :
    process_csv_mmap ["id,value\n".toList, "0,2\n".toList, "bad\n".toList]
        = Except.error "IndexError" ∧
      process_csv_mmap ["id,value\n".toList, "0,2\n".toList, "bad\n".toList]
        ≠ Except.ok 2 := by
  have h1 : process_csv_mmap ["id,value\n".toList, "0,2\n".toList, "bad\n".toList]
      = Except.error "IndexError" := rfl
  exact ⟨h1, fun h => Except.noConfusion (h1.symm.trans h)⟩

/-- The line loop returns the accumulator plus the parsed values of the
remaining lines, provided every remaining line has a second field. -/
theorem mmapLoop_eq :
    ∀ lines : List (List Char),
      (∀ line ∈ lines, 2 ≤ (pySplit ',' line).length) →
      ∀ t : Int, mmapLoop t lines
        = Except.ok (t + (lines.filterMap
            fun line => pyInt? ((pySplit ',' line).getD 1 [])).sum) := by
  intro lines
  induction lines with
  | nil => intro _ t; simp [mmapLoop]
  | cons line rest ih =>
      intro h t
      have hlen := h line (List.mem_cons_self line rest)
      rcases hsplit : (pySplit ',' line).drop 1 with _ | ⟨f1, fs⟩
      · exfalso
        have := congrArg List.length hsplit
        rw [List.length_drop] at this
        simp at this
        omega
      · have hget : (pySplit ',' line)[1]?.getD [] = f1 := by
          rw [← List.head?_drop, hsplit]
          rfl
        have hrest : ∀ l ∈ rest, 2 ≤ (pySplit ',' l).length :=
          fun l hl => h l (List.mem_cons_of_mem line hl)
        rcases hv : pyInt? f1 with _ | v
        · have hstep : mmapLoop t (line :: rest) = mmapLoop t rest := by
            show (match (pySplit ',' line).drop 1 with
                  | [] => Except.error "IndexError"
                  | f1 :: _ =>
                      match pyInt? f1 with
                      | some v => mmapLoop (t + v) rest
                      | none => mmapLoop t rest) = mmapLoop t rest
            rw [hsplit]
            show (match pyInt? f1 with
                  | some v => mmapLoop (t + v) rest
                  | none => mmapLoop t rest) = mmapLoop t rest
            rw [hv]
          rw [hstep, ih hrest t]
          simp [List.filterMap_cons, hget, hv]
        · have hstep : mmapLoop t (line :: rest) = mmapLoop (t + v) rest := by
            show (match (pySplit ',' line).drop 1 with
                  | [] => Except.error "IndexError"
                  | f1 :: _ =>
                      match pyInt? f1 with
                      | some v => mmapLoop (t + v) rest
                      | none => mmapLoop t rest) = mmapLoop (t + v) rest
            rw [hsplit]
            show (match pyInt? f1 with
                  | some v => mmapLoop (t + v) rest
                  | none => mmapLoop t rest) = mmapLoop (t + v) rest
            rw [hv]
          rw [hstep, ih hrest (t + v)]
          simp [List.filterMap_cons, hget, hv, add_assoc]

/--
C9 (amended).  For every input file in which each line has at least two
comma-separated fields (i.e. contains a comma), the memory-mapped
variant never raises: it silently skips every line whose second field
does not parse as an integer (such as the header) and returns the sum
over exactly the lines that do parse.  On a line with no comma, however,
the subscript `split(',')[1]` raises an IndexError that the
`except ValueError` clause does not catch, so the call aborts.
-/
theorem c9_mmap_skips_unparsable (lines : List (List Char))
    (h : ∀ line ∈ lines, 2 ≤ (pySplit ',' line).length) :
    process_csv_mmap lines
      = Except.ok ((lines.filterMap
          fun line => pyInt? ((pySplit ',' line).getD 1 [])).sum) := by
  rw [show process_csv_mmap lines = mmapLoop 0 lines from rfl, mmapLoop_eq lines h 0,
    zero_add]

/-- Witness for the amended C9: header skipped, `xx` skipped, `2` summed. -/
theorem c9_mmap_skips_unparsable_witness :
    process_csv_mmap ["id,value\n".toList, "0,2\n".toList, "5,xx\n".toList]
      = Except.ok ((["id,value\n".toList, "0,2\n".toList, "5,xx\n".toList].filterMap
          fun line => pyInt? ((pySplit ',' line).getD 1 [])).sum) :=
  c9_mmap_skips_unparsable ["id,value\n".toList, "0,2\n".toList, "5,xx\n".toList]
    (by decide)
